import Mathlib

/-!
Verification of the Animation & Lip-Sync Synchronization Engine
(`src/app/components/ThreeCanvas.tsx`, with the duplicated prototype in
`src/unnamed/part_001`).

The development shallowly embeds the parts of the source that the claims
touch:

* the clip retargeting adapter `retargetClip` (bone-name canonicalization,
  root-translation filtering, bone-name mapping with fallbacks) together
  with the hand-track deduplication step from `playGestures` /
  `playAnimation`;
* the audio-clock viseme scheduler from the render tick (`animate`);
* the speech playback supersession logic of
  `playAudioWithEmotionAndLipSync`;
* the locomotion start/finish capture-restore protocol of `playAnimation`;
* the blink / gaze-saccade processes and the per-frame morph smoothing
  (`THREE.MathUtils.lerp` with `LERP_SPEED`), and the emotion morph
  application pass.

Track and bone names are modelled as lists of characters; numeric values
(weights, times, deltas) as rationals.
-/

namespace Avatar

/-- Bone / track / morph names, modelled as lists of characters. -/
abbrev Name := List Char

/-! ## Retargeting adapter (`retargetClip`, ThreeCanvas.tsx lines 561-613) -/

/-- Case-insensitive character comparison, as done by the `i` regex flag. -/
def charCI (a b : Char) : Bool := a.toLower == b.toLower

/-- Case-insensitive test that `s` starts with the pattern `p`. -/
def startsCI : Name → Name → Bool
  | [], _ => true
  | _ :: _, [] => false
  | p :: ps, c :: cs => charCI p c && startsCI ps cs

/-- The pattern of the canonicalization regex `/mixamorig:/gi`. -/
def mixColon : Name := "mixamorig:".data

/-- The replacement string of the canonicalization regex. -/
def mixPlain : Name := "mixamorig".data

/-- Left-to-right, non-overlapping replacement of case-insensitive
occurrences of `"mixamorig:"` by `"mixamorig"`, fuelled for structural
recursion.  This is `name.replace(/mixamorig:/gi, "mixamorig")`. -/
def canonAux : Nat → Name → Name
  | 0, l => l
  | _ + 1, [] => []
  | fuel + 1, c :: cs =>
    if startsCI mixColon (c :: cs) then
      mixPlain ++ canonAux fuel (List.drop 10 (c :: cs))
    else
      c :: canonAux fuel cs

/-- The `canonicalize` helper of `retargetClip`:
`(name) => name.replace(/mixamorig:/gi, "mixamorig")`. -/
def canonicalize (n : Name) : Name := canonAux n.length n

/-- The static `boneNameMap` table (ThreeCanvas.tsx lines 111-165). -/
def boneNameMap : List (Name × Name) := [
  ("mixamorigHips".data, "Hips".data),
  ("mixamorigSpine".data, "Spine".data),
  ("mixamorigSpine1".data, "Spine1".data),
  ("mixamorigSpine2".data, "Spine2".data),
  ("mixamorigNeck".data, "Neck".data),
  ("mixamorigHead".data, "Head".data),
  ("mixamorigLeftShoulder".data, "LeftShoulder".data),
  ("mixamorigLeftArm".data, "LeftArm".data),
  ("mixamorigLeftForeArm".data, "LeftForeArm".data),
  ("mixamorigLeftHand".data, "LeftHand".data),
  ("mixamorigLeftHandThumb1".data, "LeftHandThumb1".data),
  ("mixamorigLeftHandThumb2".data, "LeftHandThumb2".data),
  ("mixamorigLeftHandThumb3".data, "LeftHandThumb3".data),
  ("mixamorigLeftHandIndex1".data, "LeftHandIndex1".data),
  ("mixamorigLeftHandIndex2".data, "LeftHandIndex2".data),
  ("mixamorigLeftHandIndex3".data, "LeftHandIndex3".data),
  ("mixamorigLeftHandMiddle1".data, "LeftHandMiddle1".data),
  ("mixamorigLeftHandMiddle2".data, "LeftHandMiddle2".data),
  ("mixamorigLeftHandMiddle3".data, "LeftHandMiddle3".data),
  ("mixamorigLeftHandRing1".data, "LeftHandRing1".data),
  ("mixamorigLeftHandRing2".data, "LeftHandRing2".data),
  ("mixamorigLeftHandRing3".data, "LeftHandRing3".data),
  ("mixamorigLeftHandPinky1".data, "LeftHandPinky1".data),
  ("mixamorigLeftHandPinky2".data, "LeftHandPinky2".data),
  ("mixamorigLeftHandPinky3".data, "LeftHandPinky3".data),
  ("mixamorigRightShoulder".data, "RightShoulder".data),
  ("mixamorigRightArm".data, "RightArm".data),
  ("mixamorigRightForeArm".data, "RightForeArm".data),
  ("mixamorigRightHand".data, "RightHand".data),
  ("mixamorigRightHandThumb1".data, "RightHandThumb1".data),
  ("mixamorigRightHandThumb2".data, "RightHandThumb2".data),
  ("mixamorigRightHandThumb3".data, "RightHandThumb3".data),
  ("mixamorigRightHandIndex1".data, "RightHandIndex1".data),
  ("mixamorigRightHandIndex2".data, "RightHandIndex2".data),
  ("mixamorigRightHandIndex3".data, "RightHandIndex3".data),
  ("mixamorigRightHandMiddle1".data, "RightHandMiddle1".data),
  ("mixamorigRightHandMiddle2".data, "RightHandMiddle2".data),
  ("mixamorigRightHandMiddle3".data, "RightHandMiddle3".data),
  ("mixamorigRightHandRing1".data, "RightHandRing1".data),
  ("mixamorigRightHandRing2".data, "RightHandRing2".data),
  ("mixamorigRightHandRing3".data, "RightHandRing3".data),
  ("mixamorigRightHandPinky1".data, "RightHandPinky1".data),
  ("mixamorigRightHandPinky2".data, "RightHandPinky2".data),
  ("mixamorigRightHandPinky3".data, "RightHandPinky3".data),
  ("mixamorigLeftUpLeg".data, "LeftUpLeg".data),
  ("mixamorigLeftLeg".data, "LeftLeg".data),
  ("mixamorigLeftFoot".data, "LeftFoot".data),
  ("mixamorigLeftToeBase".data, "LeftToeBase".data),
  ("mixamorigRightUpLeg".data, "RightUpLeg".data),
  ("mixamorigRightLeg".data, "RightLeg".data),
  ("mixamorigRightFoot".data, "RightFoot".data),
  ("mixamorigRightToeBase".data, "RightToeBase".data)]

/-- Lookup in `boneNameMap` (JS object property access). -/
def lookupBone (k : Name) : Option Name := List.lookup k boneNameMap

/-- The alternatives of the regex
`/^(Hips|Spine|Spine1|Spine2|Neck|Head|Left|Right)/`. -/
def targetStyleAlts : List Name :=
  ["Hips".data, "Spine".data, "Spine1".data, "Spine2".data,
   "Neck".data, "Head".data, "Left".data, "Right".data]

/-- Test of the target-style regex: the name starts with one of the
alternatives. -/
def matchesTargetStyle (n : Name) : Bool :=
  targetStyleAlts.any (fun p => p.isPrefixOf n)

/-- The `targetBone` computation of `retargetClip` for a canonicalized
bone name: table lookup; else pass target-style names through; else strip
a case-insensitive `mixamorig` front and retry the table; else fall back
to the canonicalized name. -/
def targetBoneFor (canon : Name) : Name :=
  match lookupBone canon with
  | some t => t
  | none =>
    if matchesTargetStyle canon then canon
    else if startsCI mixPlain canon then
      match lookupBone (canon.drop 9) with
      | some t => t
      | none => canon.drop 9
    else canon

/-- `track.name.split(".")[0]`: the segment before the first dot. -/
def boneOf (n : Name) : Name := n.takeWhile (fun c => c ≠ '.')

/-- The `".position"` suffix tested by `track.name.endsWith(".position")`. -/
def posSuffix : Name := ".position".data

/-- The root name `"Hips"`. -/
def hipsName : Name := "Hips".data

/-- The prefixed root name `"mixamorigHips"`. -/
def mixHipsName : Name := "mixamorigHips".data

/-- The `isRootPos` predicate of the root-translation filter in
`retargetClip` (lines 574-581). -/
def isRootPos (n : Name) : Bool :=
  posSuffix.isSuffixOf n &&
    (canonicalize (boneOf n) == mixHipsName || canonicalize (boneOf n) == hipsName)

/-- Renaming of one track name (lines 583-604): replace the leading bone
segment by its target bone when the target is non-empty and different.
(`name.replace(boneRaw, targetBone)` replaces the first occurrence of
`boneRaw`, which is the prefix of the name.) -/
def renameTrack (n : Name) : Name :=
  let boneRaw := boneOf n
  let tb := targetBoneFor (canonicalize boneRaw)
  if tb = [] ∨ tb = boneRaw then n else tb ++ n.drop boneRaw.length

/-- An animation clip, reduced to its list of track names (the only part
`retargetClip` inspects; keyframe payloads are carried along unchanged). -/
structure Clip where
  tracks : List Name
deriving DecidableEq, Repr

/-- The `retargetClip` function (ThreeCanvas.tsx lines 561-613): drop root
translation tracks, then rename every remaining track. -/
def retargetClip (c : Clip) : Clip :=
  ⟨(c.tracks.filter (fun n => !isRootPos n)).map renameTrack⟩

/-! ## Hand-track deduplication (`playGestures` lines 794-807,
`playAnimation` lines 909-925) -/

/-- The `".quaternion"` suffix. -/
def quatSuffix : Name := ".quaternion".data

/-- The `"LeftHand."` name front. -/
def leftHandDot : Name := "LeftHand.".data

/-- The `"RightHand."` name front. -/
def rightHandDot : Name := "RightHand.".data

/-- Tracks subject to deduplication: quaternion tracks on `LeftHand.` /
`RightHand.` names. -/
def isHandQuat (n : Name) : Bool :=
  quatSuffix.isSuffixOf n && (leftHandDot.isPrefixOf n || rightHandDot.isPrefixOf n)

/-- The dedup loop with its `seenQuat` set: keep the first occurrence of
each hand quaternion track name, pass everything else through. -/
def dedupeAux : List Name → List Name → List Name
  | _, [] => []
  | seen, n :: rest =>
    if isHandQuat n then
      if seen.contains n then dedupeAux seen rest
      else n :: dedupeAux (n :: seen) rest
    else n :: dedupeAux seen rest

/-- Deduplication entry point (fresh `seenQuat` set). -/
def dedupeHandTracks (l : List Name) : List Name := dedupeAux [] l

/-- The gesture clip preparation pipeline of `playGestures`:
`retargetClip` followed by the hand-track dedup. -/
def prepareGestureClip (c : Clip) : Clip :=
  ⟨dedupeHandTracks (retargetClip c).tracks⟩

/-! ## Known-convention track names

The amended idempotence / root-translation statements quantify over clips
whose track names come from the conventions the adapter is written for:
a bone segment (no dots, canonicalizing either into the `boneNameMap`
table or already target-style) followed by one channel suffix. -/

/-- Test for a case-insensitive occurrence of `"mixamorig:"` anywhere in
the name (the canonicalization regex matches nothing iff this is false). -/
def hasMixColon : Name → Bool
  | [] => false
  | c :: cs => startsCI mixColon (c :: cs) || hasMixColon cs

/-- A name without dots (a well-formed bone segment). -/
def dotFree (n : Name) : Bool := n.all (fun c => c ≠ '.')

/-- The three keyframe channel suffixes used by three.js tracks. -/
def channelNames : List Name :=
  ["position".data, "quaternion".data, "scale".data]

/-- A track name of one of the known source conventions: a dot-free bone
segment followed by a channel, where the bone either canonicalizes into
the `boneNameMap` table (the `mixamorig` / `mixamorig:` conventions) or is
already a target-style name untouched by canonicalization. -/
def SaneTrack (n : Name) : Prop :=
  ∃ b ch, n = b ++ '.' :: ch ∧ ch ∈ channelNames ∧ dotFree b = true ∧
    ((lookupBone (canonicalize b)).isSome = true ∨
      (hasMixColon b = false ∧ matchesTargetStyle b = true))

/-- A concrete clip mixing the three known conventions, with root
translation tracks and a root rotation track. -/
def clipKnown : Clip :=
  ⟨["mixamorig:LeftArm.quaternion".data, "Hips.position".data,
    "mixamorigHips.position".data, "mixamorigHips.quaternion".data]⟩

/-- A concrete gesture clip whose two hand tracks collapse onto
`LeftHand.quaternion` after retargeting. -/
def clipHands : Clip :=
  ⟨["mixamorigLeftHand.quaternion".data, "mixamorig:LeftHand.quaternion".data,
    "Spine.quaternion".data]⟩

/-! ## Audio-clock viseme scheduler (`animate`, ThreeCanvas.tsx lines
2011-2045, fed by `playAudioWithEmotionAndLipSync`) -/

/-- A viseme cue `{ time, value, jaw }` from the backend cue list. -/
structure Cue where
  time : ℚ
  value : Name
  jaw : ℚ
deriving DecidableEq

/-- The mutable lip-sync state across render ticks:
`currentVisemeIndexRef`, the `targetVisemeWeights` object (an
insertion-ordered key/value record) and `targetJawOpen`. -/
structure LipState where
  cursor : ℕ
  weights : List (Name × ℚ)
  jaw : ℚ
deriving DecidableEq

/-- The `"viseme_"` key test of `key.startsWith("viseme_")`. -/
def visemeKeyStart : Name := "viseme_".data

/-- Keys treated as viseme weights by the zero pass. -/
def isVisemeKey (k : Name) : Bool := visemeKeyStart.isPrefixOf k

/-- The zero pass
`Object.keys(targetVisemeWeights).forEach(k => if (k.startsWith("viseme_")) w[k] = 0)`. -/
def zeroVisemes (w : List (Name × ℚ)) : List (Name × ℚ) :=
  w.map (fun p => if isVisemeKey p.1 then (p.1, 0) else p)

/-- JS object assignment `obj[k] = v`: overwrite the existing entry or
append a new one. -/
def setWeight (w : List (Name × ℚ)) (k : Name) (v : ℚ) : List (Name × ℚ) :=
  if w.any (fun p => p.1 == k) then
    w.map (fun p => if p.1 == k then (k, v) else p)
  else w ++ [(k, v)]

/-- The cursor loop
`while (cursor < visemes.length && elapsed >= visemes[cursor].time) cursor++`:
how many cues are consumed from the suffix at the cursor. -/
def advance : List Cue → ℚ → ℕ
  | [], _ => 0
  | c :: rest, t => if c.time ≤ t then advance rest t + 1 else 0

/-- One render tick of the lip-sync block at elapsed audio-clock time `t`:
advance the cursor, and if a new cue was crossed (`nextViseme`), zero all
viseme keys, set the crossed cue's key to 1 and the jaw target to its jaw
amount; otherwise leave the targets untouched. -/
def lipTick (cues : List Cue) (t : ℚ) (s : LipState) : LipState :=
  let rest := cues.drop s.cursor
  let k := advance rest t
  match (rest.take k).getLast? with
  | none => { s with cursor := s.cursor + k }
  | some cue =>
    { cursor := s.cursor + k
      weights := setWeight (zeroVisemes s.weights) cue.value 1
      jaw := cue.jaw }

/-- A run of consecutive render ticks. -/
def lipRun (cues : List Cue) (s : LipState) : List ℚ → LipState
  | [] => s
  | t :: ts => lipRun cues (lipTick cues t s) ts

/-- The reset performed by `playAudioWithEmotionAndLipSync` before
scheduling: cursor 0, all viseme keys zeroed, jaw target 0. -/
def lipReset (w : List (Name × ℚ)) : LipState :=
  ⟨0, zeroVisemes w, 0⟩

/-- All viseme-prefixed entries of the weight object are zero. -/
def allVisemesZero (w : List (Name × ℚ)) : Prop :=
  ∀ p ∈ w, isVisemeKey p.1 = true → p.2 = 0

/-- All viseme-prefixed entries other than `v` are zero. -/
def othersZero (w : List (Name × ℚ)) (v : Name) : Prop :=
  ∀ p ∈ w, isVisemeKey p.1 = true → p.1 ≠ v → p.2 = 0

/-- The targets reflect the cue under the cursor: either no cue has been
consumed and all viseme targets are zero with jaw 0, or the last consumed
cue's viseme weight target is 1, every other viseme weight target is 0,
and the jaw target is that cue's jaw amount. -/
def lipShape (cues : List Cue) (s : LipState) : Prop :=
  ((cues.take s.cursor).getLast? = none ∧ allVisemesZero s.weights ∧ s.jaw = 0) ∨
  (∃ cue, (cues.take s.cursor).getLast? = some cue ∧
    List.lookup cue.value s.weights = some 1 ∧
    othersZero s.weights cue.value ∧ s.jaw = cue.jaw)

/-- The scheduler invariant at elapsed time `t`: the cursor equals the
number of consumed cues for time `t` and the targets reflect the last
consumed cue. -/
def lipInv (cues : List Cue) (t : ℚ) (s : LipState) : Prop :=
  s.cursor = advance cues t ∧ lipShape cues s

/-- A concrete sorted cue list (the spec's example shape). -/
def cuesEx : List Cue :=
  [⟨0, "viseme_aa".data, 1⟩, ⟨1, "viseme_O".data, 0⟩, ⟨2, "viseme_sil".data, 0⟩]

/-! ## Blendshape smoothing (`THREE.MathUtils.lerp`, `LERP_SPEED`) -/

/-- The fixed smoothing rate constant (ThreeCanvas.tsx line 291). -/
def LERP_SPEED : ℚ := 10

/-- `THREE.MathUtils.lerp(x, y, t) = (1 - t) * x + t * y` (no clamping). -/
def lerp (x y t : ℚ) : ℚ := (1 - t) * x + t * y

/-- One smoothing step of a weight toward its target over a frame of
`dt` seconds: `lerp(current, target, LERP_SPEED * delta)` (lines
2080-2103). -/
def smoothTowards (x target dt : ℚ) : ℚ := lerp x target (LERP_SPEED * dt)

/-! ## Speech playback supersession
(`playAudioWithEmotionAndLipSync`, ThreeCanvas.tsx lines 484-559) -/

/-- The speech emotion enum. -/
inductive Emotion
  | neutral
  | happy
  | sad
  | excited
  | thinking
  | confused
  | annoyed
  | flirty
deriving DecidableEq, Repr

/-- Observable state of one `AudioBufferSourceNode` playback resource. -/
structure AudioSource where
  stopped : Bool
  connected : Bool
  hasOnEnded : Bool
deriving DecidableEq, Repr

/-- The speech-engine state touched by `playAudioWithEmotionAndLipSync`:
every created source node (keyed by an id), the `audioSourceRef`, the
post-talk flag, the lip-sync state, the active emotion, and the cue
list / start time stored on `faceMesh.userData`. -/
structure SpeechEngine where
  sources : List (ℕ × AudioSource)
  activeSource : Option ℕ
  isWaitingAfterTalk : Bool
  lip : LipState
  emotion : Emotion
  activeVisemes : List Cue
  audioStartTime : ℚ
deriving DecidableEq

/-- Stopping a previous source: `onended = null; stop(); disconnect()`
leaves it stopped, disconnected, and without an ended handler. -/
def stopSource (sources : List (ℕ × AudioSource)) (i : ℕ) : List (ℕ × AudioSource) :=
  sources.map (fun p => if p.1 == i then (p.1, ⟨true, false, false⟩) else p)

/-- `playAudioWithEmotionAndLipSync(audioUrl, visemes, emotion)`, with the
scheduling of the decoded buffer carried out: the previous scheduled
source is stopped/disconnected and its handler detached, the post-talk
flag and viseme cursor are reset, viseme keys zeroed and the jaw target
zeroed, the emotion stored; then a new connected source with an ended
handler is created and scheduled at `now + 0.06` with the new cue list. -/
def speak (e : SpeechEngine) (newId : ℕ) (cues : List Cue) (emo : Emotion)
    (now : ℚ) : SpeechEngine :=
  let sources1 :=
    match e.activeSource with
    | some i => stopSource e.sources i
    | none => e.sources
  { sources := sources1 ++ [(newId, ⟨false, true, true⟩)]
    activeSource := some newId
    isWaitingAfterTalk := false
    lip := lipReset e.lip.weights
    emotion := emo
    activeVisemes := cues
    audioStartTime := now + 3/50 }

/-- One render tick of the lip-sync block at audio-context time `now`:
runs only while the stored cue list is non-empty, against the elapsed
time `now - audioStartTime`. -/
def speechTick (e : SpeechEngine) (now : ℚ) : SpeechEngine :=
  if e.activeVisemes.isEmpty then e
  else { e with lip := lipTick e.activeVisemes (now - e.audioStartTime) e.lip }

/-- A run of render ticks on the speech engine. -/
def speechRun (e : SpeechEngine) : List ℚ → SpeechEngine
  | [] => e
  | t :: ts => speechRun (speechTick e t) ts

/-! ## Locomotion start/finish capture-restore protocol
(`playAnimation`, ThreeCanvas.tsx lines 859-1047) -/

/-- A rational 3-vector (camera / target / root positions). -/
structure Vec3 where
  x : ℚ
  y : ℚ
  z : ℚ
deriving DecidableEq, Repr

/-- A rational quaternion (orientations / joint rotations). -/
structure Quat4 where
  qx : ℚ
  qy : ℚ
  qz : ℚ
  qw : ℚ
deriving DecidableEq, Repr

/-- Orbit-control state: target point and the user-interaction settings
saved/restored around camera follow. -/
structure ControlsState where
  target : Vec3
  enablePan : Bool
  enableRotate : Bool
  enableDamping : Bool
  dampingFactor : ℚ
deriving DecidableEq, Repr

/-- Play state of an animation action. -/
structure ActionState where
  playing : Bool
  weight : ℚ
deriving DecidableEq, Repr

/-- The engine state read and written by the locomotion protocol: camera,
controls, model root transform, skeleton pose, the idle and locomotion
actions, the overlay flags and the capture refs (`cameraStartPosRef`,
`controlsStartTargetRef`, `prevControlsStateRef`, `modelStartPosRef`,
`modelStartQuatRef`). -/
structure LocoEngine where
  cameraPos : Vec3
  controls : ControlsState
  modelPos : Vec3
  modelQuat : Quat4
  skelPose : List Quat4
  bindPose : List Quat4
  idle : ActionState
  locomotion : ActionState
  isFollowing : Bool
  typingActive : Bool
  hasCapturedBasePose : Bool
  cameraStartPos : Vec3
  controlsStartTarget : Vec3
  prevControlsSettings : Option (Bool × Bool × Bool × ℚ)
  modelStartPos : Vec3
  modelStartQuat : Quat4
deriving DecidableEq

/-- The locomotion start path (lines 875-975): release the typing pose,
stop all actions, reset the skeleton to bind pose, restore the root
transform when a base pose was captured, capture the camera position and
orbit target, save and disable the user-interaction settings, enable the
follow, fade the idle out and play the clip. -/
def startLocomotion (e : LocoEngine) : LocoEngine :=
  { e with
    typingActive := false
    skelPose := e.bindPose
    modelPos := if e.hasCapturedBasePose then e.modelStartPos else e.modelPos
    modelQuat := if e.hasCapturedBasePose then e.modelStartQuat else e.modelQuat
    cameraStartPos := e.cameraPos
    controlsStartTarget := e.controls.target
    prevControlsSettings := some (e.controls.enablePan, e.controls.enableRotate,
      e.controls.enableDamping, e.controls.dampingFactor)
    controls := { e.controls with
      enablePan := false
      enableRotate := false
      enableDamping := false }
    isFollowing := true
    idle := { e.idle with weight := 0 }
    locomotion := ⟨true, 1⟩ }

/-- What playback may mutate between locomotion start and completion:
the camera follow moves the camera and orbit target, and the mixer drives
the joint rotations and the root transform.  The capture refs and the
saved control settings are not touched. -/
def playbackPerturb (e : LocoEngine) (cam tgt mp : Vec3) (mq : Quat4)
    (pose : List Quat4) : LocoEngine :=
  { e with
    cameraPos := cam
    controls := { e.controls with target := tgt }
    modelPos := mp
    modelQuat := mq
    skelPose := pose }

/-- The `onFinished` completion path (lines 977-1039): stop the follow,
restore the camera position and orbit target from the captures, restore
the saved user-interaction settings (defaults when missing), stop all
actions, reset the skeleton to bind pose, restore the model root
transform from its load-time capture, and fade the idle back in at full
weight. -/
def finishLocomotion (e : LocoEngine) : LocoEngine :=
  { e with
    isFollowing := false
    cameraPos := e.cameraStartPos
    controls :=
      match e.prevControlsSettings with
      | some (pan, rot, damp, factor) =>
        ⟨e.controlsStartTarget, pan, rot, damp, factor⟩
      | none => ⟨e.controlsStartTarget, true, true, true, 2/25⟩
    locomotion := ⟨false, 0⟩
    skelPose := e.bindPose
    modelPos := e.modelStartPos
    modelQuat := e.modelStartQuat
    idle := ⟨true, 1⟩ }

/-- Outcome of one `playAnimation` request as far as the loader callback:
a loaded clip enters the start path; a BVH without animation data or a
loader error rejects the promise. -/
inductive LoadResult
  | ok (clip : Clip)
  | noAnimData
  | loadError
deriving DecidableEq

/-- The `playAnimation` entry up to the loader callbacks: on success the
start path runs (returning `true` for an accepted request); on failure
(`reject`) the engine state is returned as is. -/
def playAnimationOutcome (load : LoadResult) (e : LocoEngine) : LocoEngine × Bool :=
  match load with
  | .ok _ => (startLocomotion e, true)
  | .noAnimData => (e, false)
  | .loadError => (e, false)

/-! ## Blink and gaze-saccade processes (`animate`, lines 1951-2009) -/

/-- State of the periodic random blink process and the `eyeBlinkLeft` /
`eyeBlinkRight` morph influences it writes. -/
structure BlinkState where
  isBlinking : Bool
  blinkProgress : ℚ
  timeUntilBlink : ℚ
  left : ℚ
  right : ℚ
deriving DecidableEq, Repr

/-- `blinkDuration = 0.15`. -/
def blinkDuration : ℚ := 3/20

/-- One render tick of the blinking logic; `rand` is the `Math.random()`
draw used to schedule the next blink. -/
def blinkTick (s : BlinkState) (delta rand : ℚ) : BlinkState :=
  if s.isBlinking then
    if s.blinkProgress + delta ≥ blinkDuration then
      ⟨false, 0, rand * 2 + 2, 0, 0⟩
    else
      { s with blinkProgress := s.blinkProgress + delta }
  else
    if s.timeUntilBlink - delta ≤ 0 then
      { s with
        isBlinking := true
        blinkProgress := 0
        timeUntilBlink := s.timeUntilBlink - delta
        left := 1
        right := 1 }
    else
      { s with timeUntilBlink := s.timeUntilBlink - delta }

/-- State of the periodic gaze-saccade process and the `eyesLookUp` /
`eyesLookDown` morph influences it writes. -/
structure GazeState where
  isLooking : Bool
  saccadeTimer : ℚ
  timeToNextSaccade : ℚ
  lookUp : ℚ
  lookDown : ℚ
  inflUp : ℚ
  inflDown : ℚ
deriving DecidableEq, Repr

/-- `saccadeDuration = 0.1`. -/
def saccadeDuration : ℚ := 1/10

/-- One render tick of the saccade logic; `r1`, `r2`, `r3` are the
`Math.random()` draws for the next interval, the direction, and the
amplitude.  The look influences are always lerped toward the targets. -/
def gazeTick (s : GazeState) (delta r1 r2 r3 : ℚ) : GazeState :=
  let timer := s.saccadeTimer + delta
  let s1 :=
    if s.isLooking then
      if timer > saccadeDuration then
        { s with isLooking := false, saccadeTimer := 0, lookUp := 0, lookDown := 0 }
      else { s with saccadeTimer := timer }
    else if timer > s.timeToNextSaccade then
      { s with
        isLooking := true
        saccadeTimer := 0
        timeToNextSaccade := r1 * 3 + 1
        lookUp := if r2 < 1/2 then r3 * (1/2) + 1/5 else 0
        lookDown := if r2 < 1/2 then 0 else r3 * (1/2) + 1/5 }
    else { s with saccadeTimer := timer }
  { s1 with
    inflUp := lerp s1.inflUp s1.lookUp (LERP_SPEED * delta)
    inflDown := lerp s1.inflDown s1.lookDown (LERP_SPEED * delta) }

/-- The locomotion-follow and typing flags available to the render tick. -/
structure OverlayFlags where
  isFollowing : Bool
  typingActive : Bool
deriving DecidableEq, Repr

/-- The blink and saccade processes as executed by one render tick: the
code guards only on the face mesh morph dictionary and never consults
`isFollowingRef` or `typingActiveRef`, so the flags do not enter the
computation. -/
def proceduralFaceTick (_flags : OverlayFlags) (b : BlinkState) (g : GazeState)
    (delta rb r1 r2 r3 : ℚ) : BlinkState × GazeState :=
  (blinkTick b delta rb, gazeTick g delta r1 r2 r3)

/-- A concrete engine whose skeleton is away from bind pose and whose
idle action is stopped. -/
def brokenPoseEngine : LocoEngine where
  cameraPos := ⟨0, 1, 3⟩
  controls := ⟨⟨0, 1, 0⟩, true, true, true, 2/25⟩
  modelPos := ⟨2, 0, 2⟩
  modelQuat := ⟨0, 1, 0, 0⟩
  skelPose := [⟨1, 0, 0, 0⟩]
  bindPose := [⟨0, 0, 0, 1⟩]
  idle := ⟨false, 0⟩
  locomotion := ⟨false, 0⟩
  isFollowing := false
  typingActive := false
  hasCapturedBasePose := true
  cameraStartPos := ⟨0, 0, 0⟩
  controlsStartTarget := ⟨0, 0, 0⟩
  prevControlsSettings := none
  modelStartPos := ⟨0, 0, 0⟩
  modelStartQuat := ⟨0, 0, 0, 1⟩

/-- A blink state whose inter-blink timer has just elapsed. -/
def blinkDue : BlinkState := ⟨false, 0, 0, 0, 0⟩

/-- A quiescent gaze state. -/
def gazeIdleState : GazeState := ⟨false, 0, 5, 0, 0, 0, 0⟩

/-! ## Emotion morph application (`animate`, lines 2047-2107) -/

/-- The `emotions` table (ThreeCanvas.tsx lines 313-347): blendshape key
to base intensity for each emotion. -/
def emotionProfile : Emotion → List (Name × ℚ)
  | .neutral => []
  | .happy => [("mouthSmile".data, 3/5), ("cheekSquintLeft".data, 1/2),
      ("cheekSquintRight".data, 1/2), ("browInnerUp".data, 1/10)]
  | .sad => [("browInnerUp".data, 4/5), ("mouthFrownLeft".data, 1/2),
      ("mouthFrownRight".data, 1/2)]
  | .excited => [("eyeWideLeft".data, 7/10), ("eyeWideRight".data, 7/10),
      ("browInnerUp".data, 3/5), ("jawOpen".data, 3/10)]
  | .thinking => [("browDownLeft".data, 4/5), ("browDownRight".data, 4/5),
      ("mouthPressLeft".data, 1/2), ("mouthPressRight".data, 1/2)]
  | .confused => [("browOuterUpLeft".data, 1), ("mouthPucker".data, 3/10)]
  | .annoyed => [("browDownLeft".data, 1), ("browDownRight".data, 1),
      ("mouthFrownLeft".data, 7/10), ("mouthFrownRight".data, 7/10),
      ("noseSneerLeft".data, 2/5)]
  | .flirty => [("mouthSmileLeft".data, 3/5), ("eyeSquintLeft".data, 4/5),
      ("browOuterUpRight".data, 1/2)]

/-- The `"jawOpen"` morph key. -/
def jawOpenKey : Name := "jawOpen".data

/-- `influences[index] ?? 0`. -/
def getInfluence (inf : List (Name × ℚ)) (k : Name) : ℚ :=
  (List.lookup k inf).getD 0

/-- The emotion application loop (lines 2095-2106): for every key of the
emotion target object that exists in the morph dictionary, smooth the
influence toward the target — except for keys starting with `viseme_`
and the key `jawOpen`, which are skipped. -/
def applyEmotionPass (dict : List Name) (inf : List (Name × ℚ))
    (targets : List (Name × ℚ)) (delta : ℚ) : List (Name × ℚ) :=
  targets.foldl
    (fun acc p =>
      if dict.contains p.1 && !(isVisemeKey p.1) && !(p.1 == jawOpenKey) then
        setWeight acc p.1 (lerp (getInfluence acc p.1) p.2 (LERP_SPEED * delta))
      else acc)
    inf

end Avatar

namespace Avatar

/-! ## Theorems -/

/-- Sanity: canonicalization rewrites the prefixed convention. -/
theorem canonicalize_example :
    canonicalize "mixamorig:Hips.position".data = "mixamorigHips.position".data := by
  decide

/-- Names without a `mixamorig:` occurrence are fixed by `canonAux`. -/
theorem canonAux_of_not_hasMixColon :
    ∀ (fuel : Nat) (n : Name), hasMixColon n = false → canonAux fuel n = n
  | 0, _, _ => rfl
  | _ + 1, [], _ => rfl
  | fuel + 1, c :: cs, h => by
    simp only [hasMixColon, Bool.or_eq_false_iff] at h
    simp only [canonAux, h.1, Bool.false_eq_true, if_false]
    rw [canonAux_of_not_hasMixColon fuel cs h.2]

/-- Names without a `mixamorig:` occurrence are fixed by `canonicalize`. -/
theorem canonicalize_of_not_hasMixColon {n : Name} (h : hasMixColon n = false) :
    canonicalize n = n :=
  canonAux_of_not_hasMixColon n.length n h

/-- Canonicalization of a dot-free name stays dot-free. -/
theorem dotFree_canonAux :
    ∀ (fuel : Nat) (n : Name), dotFree n = true → dotFree (canonAux fuel n) = true
  | 0, _, h => h
  | _ + 1, [], h => h
  | fuel + 1, c :: cs, h => by
    by_cases hs : startsCI mixColon (c :: cs) = true
    · simp only [canonAux, hs, if_true]
      have hd : dotFree (List.drop 10 (c :: cs)) = true := by
        simp only [dotFree, List.all_eq_true] at h ⊢
        exact fun x hx => h x (List.mem_of_mem_drop hx)
      have hrec := dotFree_canonAux fuel (List.drop 10 (c :: cs)) hd
      simp only [dotFree, List.all_append, Bool.and_eq_true]
      exact ⟨by decide, hrec⟩
    · simp only [canonAux, hs, Bool.false_eq_true, if_false]
      simp only [dotFree, List.all_cons, Bool.and_eq_true] at h ⊢
      exact ⟨h.1, dotFree_canonAux fuel cs h.2⟩

/-- The bone segment of a well-formed track name. -/
theorem boneOf_append {b : Name} (ch : Name) (hb : dotFree b = true) :
    boneOf (b ++ '.' :: ch) = b := by
  induction b with
  | nil => simp [boneOf, List.takeWhile_cons]
  | cons c cs ih =>
    simp only [dotFree, List.all_cons, Bool.and_eq_true] at hb
    simp only [boneOf, List.cons_append, List.takeWhile_cons]
    rw [if_pos hb.1]
    have ih2 := ih hb.2
    simp only [boneOf] at ih2
    rw [ih2]

/-- The `.position` suffix test succeeds on position tracks. -/
theorem posSuffix_suffixOf_pos (b : Name) :
    posSuffix.isSuffixOf (b ++ '.' :: "position".data) = true := by
  rw [List.isSuffixOf_iff_suffix]
  exact List.suffix_append b posSuffix

/-- The `.position` suffix test fails on quaternion tracks. -/
theorem posSuffix_not_suffixOf_quat (b : Name) :
    posSuffix.isSuffixOf (b ++ '.' :: "quaternion".data) = false := by
  rw [Bool.eq_false_iff]
  intro hs
  have h2 : posSuffix <:+ b ++ '.' :: "quaternion".data :=
    List.isSuffixOf_iff_suffix.mp hs
  rw [← List.reverse_prefix, List.reverse_append] at h2
  rw [(by decide : ('.' :: "quaternion".data).reverse =
    'n' :: 'o' :: 'i' :: 'n' :: 'r' :: 'e' :: 't' :: 'a' :: 'u' :: 'q' :: '.' :: [])] at h2
  rw [(by decide : posSuffix.reverse =
    'n' :: 'o' :: 'i' :: 't' :: 'i' :: 's' :: 'o' :: 'p' :: '.' :: [])] at h2
  simp only [List.cons_append, List.cons_prefix_cons] at h2
  exact absurd h2.2.2.2.1 (by decide)

/-- The `.position` suffix test fails on scale tracks. -/
theorem posSuffix_not_suffixOf_scale (b : Name) :
    posSuffix.isSuffixOf (b ++ '.' :: "scale".data) = false := by
  rw [Bool.eq_false_iff]
  intro hs
  have h2 : posSuffix <:+ b ++ '.' :: "scale".data :=
    List.isSuffixOf_iff_suffix.mp hs
  rw [← List.reverse_prefix, List.reverse_append] at h2
  rw [(by decide : ('.' :: "scale".data).reverse =
    'e' :: 'l' :: 'a' :: 'c' :: 's' :: '.' :: [])] at h2
  rw [(by decide : posSuffix.reverse =
    'n' :: 'o' :: 'i' :: 't' :: 'i' :: 's' :: 'o' :: 'p' :: '.' :: [])] at h2
  simp only [List.cons_append, List.cons_prefix_cons] at h2
  exact absurd h2.1 (by decide)

/-- The `.quaternion` suffix test succeeds on quaternion tracks. -/
theorem quatSuffix_suffixOf_quat (b : Name) :
    quatSuffix.isSuffixOf (b ++ '.' :: "quaternion".data) = true := by
  rw [List.isSuffixOf_iff_suffix]
  exact List.suffix_append b quatSuffix

/-- The `.quaternion` suffix test fails on position tracks. -/
theorem quatSuffix_not_suffixOf_pos (b : Name) :
    quatSuffix.isSuffixOf (b ++ '.' :: "position".data) = false := by
  rw [Bool.eq_false_iff]
  intro hs
  have h2 : quatSuffix <:+ b ++ '.' :: "position".data :=
    List.isSuffixOf_iff_suffix.mp hs
  rw [← List.reverse_prefix, List.reverse_append] at h2
  rw [(by decide : ('.' :: "position".data).reverse =
    'n' :: 'o' :: 'i' :: 't' :: 'i' :: 's' :: 'o' :: 'p' :: '.' :: [])] at h2
  rw [(by decide : quatSuffix.reverse =
    'n' :: 'o' :: 'i' :: 'n' :: 'r' :: 'e' :: 't' :: 'a' :: 'u' :: 'q' :: '.' :: [])] at h2
  simp only [List.cons_append, List.cons_prefix_cons] at h2
  exact absurd h2.2.2.2.1 (by decide)

/-- The `.quaternion` suffix test fails on scale tracks. -/
theorem quatSuffix_not_suffixOf_scale (b : Name) :
    quatSuffix.isSuffixOf (b ++ '.' :: "scale".data) = false := by
  rw [Bool.eq_false_iff]
  intro hs
  have h2 : quatSuffix <:+ b ++ '.' :: "scale".data :=
    List.isSuffixOf_iff_suffix.mp hs
  rw [← List.reverse_prefix, List.reverse_append] at h2
  rw [(by decide : ('.' :: "scale".data).reverse =
    'e' :: 'l' :: 'a' :: 'c' :: 's' :: '.' :: [])] at h2
  rw [(by decide : quatSuffix.reverse =
    'n' :: 'o' :: 'i' :: 'n' :: 'r' :: 'e' :: 't' :: 'a' :: 'u' :: 'q' :: '.' :: [])] at h2
  simp only [List.cons_append, List.cons_prefix_cons] at h2
  exact absurd h2.1 (by decide)

/-- Generic fact: a key satisfying `p` is absent from an association list
all of whose keys falsify `p`. -/
theorem lookup_eq_none_of_all_not {α β : Type} [BEq α] [LawfulBEq α] (p : α → Bool) :
    ∀ (l : List (α × β)), l.all (fun q => !p q.1) = true →
      ∀ {b : α}, p b = true → List.lookup b l = none
  | [], _, _, _ => rfl
  | (k, v) :: t, hall, b, hb => by
    simp only [List.all_cons, Bool.and_eq_true, Bool.not_eq_true'] at hall
    have hbk : (b == k) = false := by
      rcases Bool.eq_false_or_eq_true (b == k) with h | h
      · exact absurd (eq_of_beq h ▸ hb) (by simp [hall.1])
      · exact h
    simp only [List.lookup_cons, hbk]
    exact lookup_eq_none_of_all_not p t hall.2 hb

/-- Generic fact: a successful association-list lookup is a membership. -/
theorem mem_of_lookup_eq_some {α β : Type} [BEq α] [LawfulBEq α] :
    ∀ {l : List (α × β)} {a : α} {b : β},
      List.lookup a l = some b → (a, b) ∈ l
  | [], _, _, h => by simp [List.lookup] at h
  | (k, v) :: t, a, b, h => by
    by_cases hbk : (a == k) = true
    · simp only [List.lookup_cons, hbk, Option.some.injEq] at h
      obtain rfl : a = k := eq_of_beq hbk
      obtain rfl : v = b := h
      exact List.mem_cons_self _ _
    · rw [Bool.not_eq_true] at hbk
      simp only [List.lookup_cons, hbk] at h
      exact List.mem_cons_of_mem _ (mem_of_lookup_eq_some h)

/-- No key of `boneNameMap` is a target-style name. -/
theorem boneNameMap_keys_not_target :
    boneNameMap.all (fun q => !matchesTargetStyle q.1) = true := by decide

/-- Every value of `boneNameMap` is a dot-free target-style name without
`mixamorig:` occurrences, never `mixamorigHips`, and equals `Hips` only
for the key `mixamorigHips`. -/
theorem boneNameMap_vals_good :
    boneNameMap.all (fun q =>
      dotFree q.2 && !hasMixColon q.2 && matchesTargetStyle q.2 &&
        !(q.2 == mixHipsName) && (!(q.2 == hipsName) || (q.1 == mixHipsName))) = true := by
  decide

/-- The empty name is not target-style. -/
theorem matchesTargetStyle_nil : matchesTargetStyle [] = false := by decide

/-- When the chosen target bone is the bone itself, the track is unchanged. -/
theorem renameTrack_eq_self {n : Name}
    (h : targetBoneFor (canonicalize (boneOf n)) = boneOf n) : renameTrack n = n := by
  simp [renameTrack, h]

/-- Track names over a good (dot-free, canonicalization-free,
target-style) bone are fixed points of `renameTrack`. -/
theorem renameTrack_fix {t : Name} (ch : Name) (h1 : dotFree t = true)
    (h2 : hasMixColon t = false) (h3 : matchesTargetStyle t = true) :
    renameTrack (t ++ '.' :: ch) = t ++ '.' :: ch := by
  have hb : boneOf (t ++ '.' :: ch) = t := boneOf_append ch h1
  have hl : lookupBone t = none :=
    lookup_eq_none_of_all_not matchesTargetStyle boneNameMap boneNameMap_keys_not_target h3
  apply renameTrack_eq_self
  rw [hb, canonicalize_of_not_hasMixColon h2]
  simp [targetBoneFor, hl, h3]

/-- Renaming a track whose canonicalized bone is a `boneNameMap` key
replaces the bone by the mapped value. -/
theorem renameTrack_of_lookup_some {b t : Name} (ch : Name) (hdf : dotFree b = true)
    (hl : lookupBone (canonicalize b) = some t) (hnnil : t ≠ []) (hne : t ≠ b) :
    renameTrack (b ++ '.' :: ch) = t ++ '.' :: ch := by
  have hb : boneOf (b ++ '.' :: ch) = b := boneOf_append ch hdf
  have htb : targetBoneFor (canonicalize b) = t := by simp [targetBoneFor, hl]
  simp only [renameTrack, hb, htb]
  rw [if_neg (by push_neg; exact ⟨hnnil, hne⟩)]
  rw [List.drop_left]

/-- Membership in a three-element list, eliminated without normalizing
the list entries. -/
theorem mem_three_elim {α : Type} {x a b c : α} (h : x ∈ [a, b, c]) :
    x = a ∨ x = b ∨ x = c := by
  rcases h with _ | ⟨_, _ | ⟨_, _ | ⟨_, h⟩⟩⟩
  · exact Or.inl rfl
  · exact Or.inr (Or.inl rfl)
  · exact Or.inr (Or.inr rfl)
  · cases h

/-- Core stability lemma: a sane track kept by the root filter renames to
a track that a second retargeting pass keeps and leaves unchanged. -/
theorem renameTrack_stable {n : Name} (hs : SaneTrack n) (hkeep : isRootPos n = false) :
    isRootPos (renameTrack n) = false ∧ renameTrack (renameTrack n) = renameTrack n := by
  obtain ⟨b, ch, rfl, hch, hdf, hknown⟩ := hs
  have hbOf : boneOf (b ++ '.' :: ch) = b := boneOf_append ch hdf
  cases hlk : lookupBone (canonicalize b) with
  | none =>
    have hk2 : hasMixColon b = false ∧ matchesTargetStyle b = true := by
      rcases hknown with h1 | h2
      · rw [hlk] at h1; simp at h1
      · exact h2
    have hfix : renameTrack (b ++ '.' :: ch) = b ++ '.' :: ch :=
      renameTrack_fix ch hdf hk2.1 hk2.2
    rw [hfix]
    exact ⟨hkeep, hfix⟩
  | some t =>
    have hmem : (canonicalize b, t) ∈ boneNameMap := mem_of_lookup_eq_some hlk
    have hprops := List.all_eq_true.mp boneNameMap_vals_good _ hmem
    simp only [Bool.and_eq_true, Bool.not_eq_true', Bool.or_eq_true, beq_iff_eq,
      beq_eq_false_iff_ne] at hprops
    obtain ⟨⟨⟨⟨hdt, hmcol⟩, hmts⟩, hnmix⟩, hhips⟩ := hprops
    by_cases hbt : t = b
    · have hself : renameTrack (b ++ '.' :: ch) = b ++ '.' :: ch := by
        apply renameTrack_eq_self
        rw [hbOf]
        simp [targetBoneFor, hlk, hbt]
      rw [hself]
      exact ⟨hkeep, hself⟩
    · have hnnil : t ≠ [] := by
        intro hnil
        rw [hnil, matchesTargetStyle_nil] at hmts
        exact absurd hmts (by simp)
      have hren := renameTrack_of_lookup_some ch hdf hlk hnnil hbt
      rw [hren]
      refine ⟨?_, renameTrack_fix ch hdt hmcol hmts⟩
      have hbt2 : boneOf (t ++ '.' :: ch) = t := boneOf_append ch hdt
      have hct : canonicalize t = t := canonicalize_of_not_hasMixColon hmcol
      rcases mem_three_elim hch with rfl | rfl | rfl
      · have hth : t ≠ hipsName := by
          intro hthips
          rcases hhips with hne | hcanon
          · exact hne hthips
          · have hbad : isRootPos (b ++ '.' :: "position".data) = true := by
              unfold isRootPos
              rw [hbOf, hcanon, posSuffix_suffixOf_pos b, Bool.true_and,
                beq_self_eq_true, Bool.true_or]
            rw [hbad] at hkeep
            exact absurd hkeep (by simp)
        unfold isRootPos
        rw [hbt2, hct, posSuffix_suffixOf_pos t, Bool.true_and, Bool.or_eq_false_iff]
        exact ⟨beq_eq_false_iff_ne.mpr hnmix, beq_eq_false_iff_ne.mpr hth⟩
      · unfold isRootPos
        rw [posSuffix_not_suffixOf_quat t, Bool.false_and]
      · unfold isRootPos
        rw [posSuffix_not_suffixOf_scale t, Bool.false_and]

/-- C1 amended: retargeting is idempotent on every clip whose track names
come from the known conventions (a dot-free bone segment that either
canonicalizes into `boneNameMap` or is already a target-style name,
followed by one of the three channel suffixes). -/
theorem retargetClip_idempotent_sane (c : Clip) (h : ∀ n ∈ c.tracks, SaneTrack n) :
    retargetClip (retargetClip c) = retargetClip c := by
  have key : ∀ m ∈ (retargetClip c).tracks, isRootPos m = false ∧ renameTrack m = m := by
    intro m hm
    simp only [retargetClip, List.mem_map] at hm
    obtain ⟨n, hn, rfl⟩ := hm
    rw [List.mem_filter] at hn
    exact renameTrack_stable (h n hn.1) (by simpa using hn.2)
  have hfil : (retargetClip c).tracks.filter (fun n => !isRootPos n) = (retargetClip c).tracks :=
    List.filter_eq_self.mpr (fun a ha => by rw [(key a ha).1]; rfl)
  have hmap : (retargetClip c).tracks.map renameTrack = (retargetClip c).tracks := by
    have := List.map_congr_left (l := (retargetClip c).tracks)
      (f := renameTrack) (g := id) (fun a ha => (key a ha).2)
    simpa using this
  calc retargetClip (retargetClip c)
      = ⟨((retargetClip c).tracks.filter (fun n => !isRootPos n)).map renameTrack⟩ := rfl
    _ = ⟨(retargetClip c).tracks.map renameTrack⟩ := by rw [hfil]
    _ = ⟨(retargetClip c).tracks⟩ := by rw [hmap]
    _ = retargetClip c := rfl

/-- C6 amended: on clips of the known conventions, no retargeted track is
a translation track on the root joint, and a rotation track whose bone
canonicalizes to the root survives retargeting under the mapped root name
`Hips`. -/
theorem retargetClip_root_translation_sane (c : Clip) (h : ∀ n ∈ c.tracks, SaneTrack n) :
    (∀ m ∈ (retargetClip c).tracks,
      ¬ (boneOf m = hipsName ∧ posSuffix.isSuffixOf m = true)) ∧
    (∀ n ∈ c.tracks, quatSuffix.isSuffixOf n = true →
      (canonicalize (boneOf n) = mixHipsName ∨ canonicalize (boneOf n) = hipsName) →
      renameTrack n ∈ (retargetClip c).tracks ∧ boneOf (renameTrack n) = hipsName) := by
  constructor
  · rintro m hm ⟨hbm, hpm⟩
    simp only [retargetClip, List.mem_map] at hm
    obtain ⟨n, hn, rfl⟩ := hm
    rw [List.mem_filter] at hn
    have hst := renameTrack_stable (h n hn.1) (by simpa using hn.2)
    have hbad : isRootPos (renameTrack n) = true := by
      unfold isRootPos
      rw [hbm, hpm, (by decide : canonicalize hipsName = hipsName), Bool.true_and,
        beq_self_eq_true, Bool.or_true]
    rw [hst.1] at hbad
    exact absurd hbad (by simp)
  · intro n hn hq hroot
    obtain ⟨b, ch, rfl, hch, hdf, hknown⟩ := h n hn
    have hbOf : boneOf (b ++ '.' :: ch) = b := boneOf_append ch hdf
    rw [hbOf] at hroot
    rcases mem_three_elim hch with rfl | rfl | rfl
    · rw [quatSuffix_not_suffixOf_pos b] at hq
      exact absurd hq (by simp)
    · have hkeep : isRootPos (b ++ '.' :: "quaternion".data) = false := by
        unfold isRootPos
        rw [posSuffix_not_suffixOf_quat b, Bool.false_and]
      have hmem : (b ++ '.' :: "quaternion".data) ∈
          c.tracks.filter (fun n => !isRootPos n) :=
        List.mem_filter.mpr ⟨hn, by rw [hkeep]; rfl⟩
      refine ⟨List.mem_map_of_mem _ hmem, ?_⟩
      rcases hroot with hmix | hhip
      · have hlk : lookupBone (canonicalize b) = some hipsName := by
          rw [hmix]; decide
        have hne : hipsName ≠ b := by
          intro heq
          rw [← heq, (by decide : canonicalize hipsName = hipsName)] at hmix
          exact absurd hmix (by decide)
        rw [renameTrack_of_lookup_some _ hdf hlk (by decide) hne]
        exact boneOf_append _ (by decide)
      · have hb : b = hipsName := by
          rcases hknown with h1 | h2
          · rw [hhip] at h1
            exact absurd h1 (by decide)
          · rw [canonicalize_of_not_hasMixColon h2.1] at hhip
            exact hhip
        subst hb
        rw [renameTrack_fix _ (by decide) (by decide) (by decide)]
        exact boneOf_append _ (by decide)
    · rw [quatSuffix_not_suffixOf_scale b] at hq
      exact absurd hq (by simp)

/-- Hand quaternion tracks already recorded in the seen set are dropped
entirely by the dedup loop. -/
theorem dedupeAux_count_zero {n : Name} (hq : isHandQuat n = true) :
    ∀ (seen l : List Name), seen.contains n = true →
      List.count n (dedupeAux seen l) = 0
  | _, [], _ => rfl
  | seen, m :: rest, h => by
    by_cases hm : isHandQuat m = true
    · by_cases hseen : seen.contains m = true
      · simp only [dedupeAux, hm, if_true, hseen]
        exact dedupeAux_count_zero hq seen rest h
      · have hmn : m ≠ n := by
          intro heq
          rw [heq] at hseen
          exact hseen h
        rw [Bool.not_eq_true] at hseen
        simp only [dedupeAux, hm, if_true, hseen, Bool.false_eq_true, if_false]
        rw [List.count_cons]
        have hin : (m :: seen).contains n = true := by
          simp only [List.contains_cons, h, Bool.or_true]
        rw [dedupeAux_count_zero hq (m :: seen) rest hin]
        simp [hmn]
    · rw [Bool.not_eq_true] at hm
      have hmn : m ≠ n := by
        intro heq
        rw [heq, hq] at hm
        exact absurd hm (by simp)
      simp only [dedupeAux, hm, Bool.false_eq_true, if_false]
      rw [List.count_cons, dedupeAux_count_zero hq seen rest h]
      simp [hmn]

/-- The dedup loop leaves at most one copy of every hand quaternion track. -/
theorem dedupeAux_count_le_one {n : Name} (hq : isHandQuat n = true) :
    ∀ (seen l : List Name), List.count n (dedupeAux seen l) ≤ 1
  | _, [] => by simp [dedupeAux]
  | seen, m :: rest => by
    by_cases hm : isHandQuat m = true
    · by_cases hseen : seen.contains m = true
      · simp only [dedupeAux, hm, if_true, hseen]
        exact dedupeAux_count_le_one hq seen rest
      · rw [Bool.not_eq_true] at hseen
        simp only [dedupeAux, hm, if_true, hseen, Bool.false_eq_true, if_false]
        rw [List.count_cons]
        by_cases hmn : m = n
        · subst hmn
          have hin : (m :: seen).contains m = true := by
            simp [List.contains_cons]
          rw [dedupeAux_count_zero hq (m :: seen) rest hin]
          simp
        · have hrec := dedupeAux_count_le_one hq (m :: seen) rest
          simpa [hmn] using hrec
    · rw [Bool.not_eq_true] at hm
      have hmn : m ≠ n := by
        intro heq
        rw [heq, hq] at hm
        exact absurd hm (by simp)
      simp only [dedupeAux, hm, Bool.false_eq_true, if_false]
      rw [List.count_cons]
      have := dedupeAux_count_le_one hq seen rest
      simp [hmn]
      exact this

/-- C7 amended: after retargeting and the dedup step of `playGestures`,
the clip contains at most one track for every hand quaternion name (the
only (joint, channel) pairs the dedup step covers). -/
theorem prepareGestureClip_hand_dedup (c : Clip) (n : Name) (h : isHandQuat n = true) :
    List.count n (prepareGestureClip c).tracks ≤ 1 :=
  dedupeAux_count_le_one h [] (retargetClip c).tracks

/-- Witness: idempotence on a concrete clip mixing the three conventions. -/
theorem retargetClip_idempotent_sane_witness :
    retargetClip (retargetClip clipKnown) = retargetClip clipKnown :=
  retargetClip_idempotent_sane clipKnown (by
    intro n hn
    rcases hn with _ | ⟨_, _ | ⟨_, _ | ⟨_, _ | ⟨_, h⟩⟩⟩⟩
    · exact ⟨"mixamorig:LeftArm".data, "quaternion".data, by decide, by decide,
        by decide, Or.inl (by decide)⟩
    · exact ⟨"Hips".data, "position".data, by decide, by decide, by decide,
        Or.inr ⟨by decide, by decide⟩⟩
    · exact ⟨"mixamorigHips".data, "position".data, by decide, by decide, by decide,
        Or.inl (by decide)⟩
    · exact ⟨"mixamorigHips".data, "quaternion".data, by decide, by decide, by decide,
        Or.inl (by decide)⟩
    · cases h)

/-- Witness: on `clipKnown`, the retargeted `LeftArm.quaternion` track is
not a root translation track, and the root rotation track survives as
`Hips.quaternion`. -/
theorem retargetClip_root_translation_sane_witness :
    ¬ (boneOf "LeftArm.quaternion".data = hipsName ∧
        posSuffix.isSuffixOf "LeftArm.quaternion".data = true) ∧
    (renameTrack "mixamorigHips.quaternion".data ∈ (retargetClip clipKnown).tracks ∧
      boneOf (renameTrack "mixamorigHips.quaternion".data) = hipsName) := by
  have hsane : ∀ n ∈ clipKnown.tracks, SaneTrack n := by
    intro n hn
    rcases hn with _ | ⟨_, _ | ⟨_, _ | ⟨_, _ | ⟨_, h⟩⟩⟩⟩
    · exact ⟨"mixamorig:LeftArm".data, "quaternion".data, by decide, by decide,
        by decide, Or.inl (by decide)⟩
    · exact ⟨"Hips".data, "position".data, by decide, by decide, by decide,
        Or.inr ⟨by decide, by decide⟩⟩
    · exact ⟨"mixamorigHips".data, "position".data, by decide, by decide, by decide,
        Or.inl (by decide)⟩
    · exact ⟨"mixamorigHips".data, "quaternion".data, by decide, by decide, by decide,
        Or.inl (by decide)⟩
    · cases h
  exact ⟨(retargetClip_root_translation_sane clipKnown hsane).1
      "LeftArm.quaternion".data (by decide),
    (retargetClip_root_translation_sane clipKnown hsane).2
      "mixamorigHips.quaternion".data (by decide) (by decide) (Or.inl (by decide))⟩

/-- Witness: at most one `LeftHand.quaternion` track remains on a concrete
gesture clip whose two hand tracks collapse. -/
theorem prepareGestureClip_hand_dedup_witness :
    isHandQuat "LeftHand.quaternion".data = true ∧
      List.count "LeftHand.quaternion".data (prepareGestureClip clipHands).tracks ≤ 1 :=
  ⟨by decide, prepareGestureClip_hand_dedup clipHands "LeftHand.quaternion".data (by decide)⟩

/-- A clip with a single root translation track in a mixed-case variant of
the motion-capture prefix.  One retargeting pass renames it to
`Hips.position` (the case-insensitive front-stripping fallback); a second
pass then drops it as a root translation track. -/
def clipMixedCaseHipsPos : Clip := ⟨["MixamorigHips.position".data]⟩

/-- C1 counterexample: retargeting is not idempotent on every clip.  On
`clipMixedCaseHipsPos` the first pass produces the track list
`[Hips.position]` and the second pass produces `[]`. -/
theorem retargetClip_not_idempotent :
    ¬ (retargetClip (retargetClip clipMixedCaseHipsPos) = retargetClip clipMixedCaseHipsPos) := by
  decide

/-- C6 counterexample: the retargeted clip can still contain a translation
track on the skeleton root: `MixamorigHips.position` escapes the root
filter and is renamed to `Hips.position`. -/
theorem retargetClip_root_translation_survives :
    ¬ (∀ t ∈ (retargetClip clipMixedCaseHipsPos).tracks,
        ¬ (boneOf t = hipsName ∧ posSuffix.isSuffixOf t = true)) := by
  decide

/-- A clip carrying the same spine rotation track under the two prefixed
spellings; both map to `Spine.quaternion`. -/
def clipDupSpine : Clip :=
  ⟨["mixamorigSpine.quaternion".data, "mixamorig:Spine.quaternion".data]⟩

/-- C7 counterexample: after retargeting and the hand-track dedup step the
clip can keep two tracks for one (joint, channel) pair: the dedup only
covers quaternion tracks on `LeftHand.` / `RightHand.` names, so the two
`Spine.quaternion` duplicates both survive. -/
theorem retarget_dedupe_keeps_duplicate_pair :
    ¬ (∀ t ∈ (prepareGestureClip clipDupSpine).tracks,
        (prepareGestureClip clipDupSpine).tracks.count t ≤ 1) := by
  decide

/-- The cursor loop is path-independent: consuming at an earlier elapsed
time and then continuing at a later one consumes exactly the cues a single
pass at the later time consumes. -/
theorem advance_trans : ∀ (cues : List Cue) {t₀ t : ℚ}, t₀ ≤ t →
    advance cues t₀ + advance (cues.drop (advance cues t₀)) t = advance cues t
  | [], _, _, _ => rfl
  | c :: rest, t₀, t, hle => by
    by_cases h : c.time ≤ t₀
    · have h2 : c.time ≤ t := le_trans h hle
      simp only [advance, if_pos h, if_pos h2]
      rw [List.drop_succ_cons]
      have ih := advance_trans rest hle
      omega
    · simp only [advance, if_neg h]
      rw [Nat.zero_add]

/-- For a cue list sorted by onset, the cursor loop consumes exactly the
cues whose onset is at most the elapsed time. -/
theorem advance_eq_countP :
    ∀ {cues : List Cue}, List.Pairwise (fun a b : Cue => a.time ≤ b.time) cues →
      ∀ (t : ℚ), advance cues t = List.countP (fun c => c.time ≤ t) cues
  | [], _, _ => rfl
  | c :: rest, hpw, t => by
    rw [List.pairwise_cons] at hpw
    by_cases h : c.time ≤ t
    · simp only [advance, if_pos h, List.countP_cons]
      rw [advance_eq_countP hpw.2 t]
      simp [h]
    · simp only [advance, if_neg h, List.countP_cons]
      have h0 : List.countP (fun c => decide (c.time ≤ t)) rest = 0 := by
        rw [List.countP_eq_zero]
        intro a ha
        simp only [decide_eq_true_eq]
        intro hat
        exact h (le_trans (hpw.1 a ha) hat)
      simp [h0, h]

/-- Every cue consumed by the cursor loop has onset at most the elapsed
time. -/
theorem take_advance_le :
    ∀ (cues : List Cue) (t : ℚ), ∀ c ∈ cues.take (advance cues t), c.time ≤ t
  | [], _, _, hc => by cases hc
  | d :: rest, t, c, hc => by
    by_cases h : d.time ≤ t
    · simp only [advance, if_pos h, List.take_succ_cons] at hc
      rcases List.mem_cons.mp hc with rfl | hc2
      · exact h
      · exact take_advance_le rest t c hc2
    · simp only [advance, if_neg h, List.take_zero] at hc
      cases hc

/-- Flipping a false boolean equality test. -/
theorem beq_symm_false {a b : Name} (h : (a == b) = false) : (b == a) = false := by
  rw [beq_eq_false_iff_ne] at h ⊢
  exact fun e => h e.symm

/-- Setting a key makes it present with the written value. -/
theorem lookup_setWeight_self (k : Name) (v : ℚ) :
    ∀ (w : List (Name × ℚ)), List.lookup k (setWeight w k v) = some v := by
  intro w
  induction w with
  | nil => simp [setWeight, List.lookup]
  | cons p rest ih =>
    obtain ⟨p1, p2⟩ := p
    by_cases hp : (p1 == k) = true
    · have hany : (((p1, p2) :: rest).any (fun q => q.1 == k)) = true := by
        rw [List.any_cons]
        simp only [hp, Bool.true_or]
      simp only [setWeight, hany, if_true, List.map_cons, hp]
      simp [List.lookup_cons]
    · rw [Bool.not_eq_true] at hp
      have hkp : (k == p1) = false := beq_symm_false hp
      have hany : (((p1, p2) :: rest).any (fun q => q.1 == k)) = rest.any (fun q => q.1 == k) := by
        rw [List.any_cons]
        simp only [hp, Bool.false_or]
      by_cases hr : (rest.any (fun q => q.1 == k)) = true
      · have h1 : (((p1, p2) :: rest).any (fun q => q.1 == k)) = true := by rw [hany, hr]
        simp only [setWeight, h1, if_true, List.map_cons, hp, Bool.false_eq_true, if_false]
        simp only [List.lookup_cons, hkp]
        have ih2 := ih
        simp only [setWeight, hr, if_true] at ih2
        exact ih2
      · rw [Bool.not_eq_true] at hr
        have h1 : (((p1, p2) :: rest).any (fun q => q.1 == k)) = false := by rw [hany, hr]
        simp only [setWeight, h1, Bool.false_eq_true, if_false, List.cons_append]
        simp only [List.lookup_cons, hkp]
        have ih2 := ih
        simp only [setWeight, hr, Bool.false_eq_true, if_false] at ih2
        exact ih2

/-- Membership after a key write: the written pair or an original entry. -/
theorem mem_setWeight {p : Name × ℚ} {w : List (Name × ℚ)} {k : Name} {v : ℚ}
    (h : p ∈ setWeight w k v) : p = (k, v) ∨ p ∈ w := by
  unfold setWeight at h
  by_cases hany : (w.any (fun q => q.1 == k)) = true
  · rw [if_pos hany, List.mem_map] at h
    obtain ⟨q, hq, he⟩ := h
    by_cases hqk : (q.1 == k) = true
    · rw [if_pos hqk] at he
      exact Or.inl he.symm
    · rw [if_neg hqk] at he
      exact Or.inr (he ▸ hq)
  · rw [if_neg hany, List.mem_append] at h
    rcases h with h | h
    · exact Or.inr h
    · exact Or.inl (List.mem_singleton.mp h)

/-- The zero pass zeroes every viseme entry. -/
theorem allVisemesZero_zeroVisemes (w : List (Name × ℚ)) :
    allVisemesZero (zeroVisemes w) := by
  intro p hp hv
  rw [zeroVisemes, List.mem_map] at hp
  obtain ⟨q, hq, he⟩ := hp
  by_cases hqv : isVisemeKey q.1 = true
  · rw [if_pos hqv] at he
    rw [← he]
  · rw [if_neg hqv] at he
    subst he
    exact absurd hv hqv

/-- After zeroing and writing `v`, every other viseme entry is zero. -/
theorem othersZero_setWeight (w : List (Name × ℚ)) (v : Name) (x : ℚ) :
    othersZero (setWeight (zeroVisemes w) v x) v := by
  intro p hp hv hne
  rcases mem_setWeight hp with h | h
  · exact absurd (by rw [h]) hne
  · exact allVisemesZero_zeroVisemes w p h hv

/-- One render tick preserves the target shape and advances the cursor by
the number of newly crossed cues. -/
theorem lipTick_pres {cues : List Cue} (t : ℚ) {s : LipState}
    (hsh : lipShape cues s) :
    lipShape cues (lipTick cues t s) ∧
      (lipTick cues t s).cursor = s.cursor + advance (cues.drop s.cursor) t := by
  cases hk : ((cues.drop s.cursor).take (advance (cues.drop s.cursor) t)).getLast? with
  | none =>
    have hk0 : advance (cues.drop s.cursor) t = 0 := by
      rw [List.getLast?_eq_none_iff, List.take_eq_nil_iff] at hk
      rcases hk with h | h
      · exact h
      · rw [h]; rfl
    have hstate : lipTick cues t s = { s with cursor := s.cursor + advance (cues.drop s.cursor) t } := by
      simp only [lipTick]
      rw [hk]
    rw [hstate]
    refine ⟨?_, rfl⟩
    unfold lipShape at hsh ⊢
    rw [hk0, Nat.add_zero]
    exact hsh
  | some cue =>
    have hstate : lipTick cues t s = ⟨s.cursor + advance (cues.drop s.cursor) t,
        setWeight (zeroVisemes s.weights) cue.value 1, cue.jaw⟩ := by
      simp only [lipTick]
      rw [hk]
    rw [hstate]
    refine ⟨?_, rfl⟩
    right
    refine ⟨cue, ?_, lookup_setWeight_self cue.value 1 (zeroVisemes s.weights),
      othersZero_setWeight s.weights cue.value 1, rfl⟩
    show (cues.take (s.cursor + advance (cues.drop s.cursor) t)).getLast? = some cue
    rw [List.take_add, List.getLast?_append, hk, Option.or_some]

/-- One render tick carries the scheduler invariant from an earlier
elapsed time to a later one. -/
theorem lipTick_inv {cues : List Cue} {t₀ t : ℚ} {s : LipState}
    (hinv : lipInv cues t₀ s) (hle : t₀ ≤ t) : lipInv cues t (lipTick cues t s) := by
  obtain ⟨hcur, hsh⟩ := hinv
  have hp := lipTick_pres t hsh
  refine ⟨?_, hp.1⟩
  rw [hp.2, hcur]
  exact advance_trans cues hle

/-- The first tick after the reset establishes the scheduler invariant. -/
theorem lipTick_reset_inv (cues : List Cue) (w : List (Name × ℚ)) (t : ℚ) :
    lipInv cues t (lipTick cues t (lipReset w)) := by
  have hsh : lipShape cues (lipReset w) := by
    left
    exact ⟨by simp [lipReset], allVisemesZero_zeroVisemes w, rfl⟩
  have hp := lipTick_pres t hsh
  refine ⟨?_, hp.1⟩
  rw [hp.2]
  show 0 + advance (cues.drop 0) t = advance cues t
  rw [List.drop_zero, Nat.zero_add]

/-- A run of ticks over non-decreasing elapsed times carries the
invariant to the last time. -/
theorem lipRun_inv {cues : List Cue} :
    ∀ (ts : List ℚ) {t₀ : ℚ} {s : LipState}, lipInv cues t₀ s →
      List.Pairwise (· ≤ ·) (t₀ :: ts) →
      lipInv cues ((t₀ :: ts).getLast (List.cons_ne_nil _ _)) (lipRun cues s ts)
  | [], t₀, s, hinv, _ => by
    simpa [lipRun] using hinv
  | t₁ :: ts, t₀, s, hinv, hpw => by
    rw [List.pairwise_cons] at hpw
    have h01 : t₀ ≤ t₁ := hpw.1 t₁ (by simp)
    have hinv1 := lipTick_inv hinv h01
    have hrec := lipRun_inv ts hinv1 hpw.2
    rw [List.getLast_cons (List.cons_ne_nil t₁ ts)]
    exact hrec

/-- C2: for a sorted cue list, across any run of render ticks with
non-decreasing elapsed audio-clock times starting from the reset state:
the per-tick cursor is non-decreasing; the final cursor equals the number
of cues whose onset is at most the final elapsed time (so the selected
cue — the last consumed one — is the latest cue with onset ≤ elapsed);
every consumed cue has onset ≤ elapsed; and the targets satisfy
`lipShape`: the selected cue's viseme weight target is 1, all other
viseme weight targets are 0, and the jaw target is the selected cue's jaw
amount. -/
theorem viseme_scheduler_correct (cues : List Cue) (w : List (Name × ℚ))
    (hsort : List.Pairwise (fun a b : Cue => a.time ≤ b.time) cues)
    (t : ℚ) (ts : List ℚ) (hmono : List.Pairwise (· ≤ ·) (t :: ts)) :
    (∀ (s : LipState) (u : ℚ), s.cursor ≤ (lipTick cues u s).cursor) ∧
    (lipRun cues (lipTick cues t (lipReset w)) ts).cursor =
      List.countP (fun c => c.time ≤ (t :: ts).getLast (List.cons_ne_nil t ts)) cues ∧
    (∀ c ∈ cues.take ((lipRun cues (lipTick cues t (lipReset w)) ts).cursor),
      c.time ≤ (t :: ts).getLast (List.cons_ne_nil t ts)) ∧
    lipShape cues (lipRun cues (lipTick cues t (lipReset w)) ts) := by
  have hinv := lipRun_inv ts (lipTick_reset_inv cues w t) hmono
  have hcur : (lipRun cues (lipTick cues t (lipReset w)) ts).cursor =
      List.countP (fun c => c.time ≤ (t :: ts).getLast (List.cons_ne_nil t ts)) cues := by
    rw [hinv.1, advance_eq_countP hsort]
  refine ⟨?_, hcur, ?_, hinv.2⟩
  · intro s u
    have hp : (lipTick cues u s).cursor = s.cursor + advance (cues.drop s.cursor) u := by
      simp only [lipTick]
      cases ((cues.drop s.cursor).take (advance (cues.drop s.cursor) u)).getLast? <;> rfl
    rw [hp]
    exact Nat.le_add_right _ _
  · intro c hc
    rw [hinv.1] at hc
    exact take_advance_le cues _ c hc

/-- Witness: the scheduler claim applied to a concrete sorted cue list,
the empty initial weight object and the elapsed-time run `[0, 1, 1]`. -/
theorem viseme_scheduler_correct_witness :
    (lipRun cuesEx (lipTick cuesEx 0 (lipReset [])) [1, 1]).cursor =
      List.countP (fun c => c.time ≤ (((0 : ℚ) :: [1, 1]).getLast (List.cons_ne_nil _ _))) cuesEx ∧
    lipShape cuesEx (lipRun cuesEx (lipTick cuesEx 0 (lipReset [])) [1, 1]) :=
  ⟨(viseme_scheduler_correct cuesEx [] (by decide) 0 [1, 1] (by decide)).2.1,
   (viseme_scheduler_correct cuesEx [] (by decide) 0 [1, 1] (by decide)).2.2.2⟩

/-- C8 counterexample: the smoothing step is not frame-rate independent.
At weight 0, target 1, `dt = 1/5` (so `LERP_SPEED * dt = 2`), a single
step yields 2 while two steps of `dt/2` yield 1. -/
theorem smoothTowards_not_rate_independent :
    ¬ (smoothTowards (smoothTowards 0 1 (1/10)) 1 (1/10) = smoothTowards 0 1 (1/5)) := by
  simp only [smoothTowards, lerp, LERP_SPEED]
  norm_num

/-- Association-list lookup distributes over append. -/
theorem lookup_append {α β : Type} [BEq α] (a : α) :
    ∀ (l1 l2 : List (α × β)),
      List.lookup a (l1 ++ l2) = (List.lookup a l1).or (List.lookup a l2)
  | [], l2 => by simp [List.lookup]
  | (k, v) :: t, l2 => by
    by_cases h : (a == k) = true
    · simp only [List.cons_append, List.lookup_cons, h, Option.or_some]
    · rw [Bool.not_eq_true] at h
      simp only [List.cons_append, List.lookup_cons, h]
      exact lookup_append a t l2

/-- Writing a key `v` different from `k` through the map pass keeps the
lookup of `k`. -/
theorem lookup_map_setKey {k v : Name} (h : (k == v) = false) (x : ℚ) :
    ∀ (w : List (Name × ℚ)),
      List.lookup k (w.map (fun q => if q.1 == v then (v, x) else q)) =
        List.lookup k w
  | [] => rfl
  | (p1, p2) :: rest => by
    by_cases hp : (p1 == v) = true
    · have hp1 : p1 = v := eq_of_beq hp
      simp only [List.map_cons, if_pos hp]
      have hkp : (k == p1) = false := by rw [hp1]; exact h
      simp only [List.lookup_cons, h, hkp]
      exact lookup_map_setKey h x rest
    · rw [Bool.not_eq_true] at hp
      simp only [List.map_cons, hp, Bool.false_eq_true, if_false]
      by_cases hkp : (k == p1) = true
      · simp only [List.lookup_cons, hkp]
      · rw [Bool.not_eq_true] at hkp
        simp only [List.lookup_cons, hkp]
        exact lookup_map_setKey h x rest

/-- Writing one key leaves the lookups of other keys unchanged. -/
theorem lookup_setWeight_ne {k v : Name} (h : (k == v) = false) (x : ℚ)
    (w : List (Name × ℚ)) :
    List.lookup k (setWeight w v x) = List.lookup k w := by
  unfold setWeight
  by_cases hany : (w.any (fun p => p.1 == v)) = true
  · rw [if_pos hany]
    exact lookup_map_setKey h x w
  · rw [if_neg hany, lookup_append]
    have hnone : List.lookup k [(v, x)] = none := by
      simp only [List.lookup_cons, h]
      rfl
    rw [hnone, Option.or_none]

/-- A render tick can only raise a viseme weight target to 1 for a value
of the cue list it runs against. -/
theorem lipTick_weight_one {cues : List Cue} {t : ℚ} {s : LipState} {k : Name}
    (hk : isVisemeKey k = true)
    (h1 : List.lookup k (lipTick cues t s).weights = some 1) :
    List.lookup k s.weights = some 1 ∨ k ∈ cues.map Cue.value := by
  cases hlast : ((cues.drop s.cursor).take (advance (cues.drop s.cursor) t)).getLast? with
  | none =>
    left
    have hstate : lipTick cues t s =
        { s with cursor := s.cursor + advance (cues.drop s.cursor) t } := by
      simp only [lipTick]
      rw [hlast]
    rw [hstate] at h1
    exact h1
  | some cue =>
    have hstate : lipTick cues t s = ⟨s.cursor + advance (cues.drop s.cursor) t,
        setWeight (zeroVisemes s.weights) cue.value 1, cue.jaw⟩ := by
      simp only [lipTick]
      rw [hlast]
    rw [hstate] at h1
    by_cases hkv : (k == cue.value) = true
    · right
      have hcm : cue ∈ cues :=
        List.mem_of_mem_drop (List.mem_of_mem_take (List.mem_of_mem_getLast? hlast))
      rw [List.mem_map]
      exact ⟨cue, hcm, (eq_of_beq hkv).symm⟩
    · rw [Bool.not_eq_true] at hkv
      rw [lookup_setWeight_ne hkv 1] at h1
      exfalso
      have hmem := mem_of_lookup_eq_some h1
      have hz := allVisemesZero_zeroVisemes s.weights (k, 1) hmem hk
      exact absurd hz (by norm_num)

/-- The engine-level tick can only raise a viseme weight target to 1 for
a value of the stored cue list. -/
theorem speechTick_weight_one {e : SpeechEngine} {now : ℚ} {k : Name}
    (hk : isVisemeKey k = true)
    (h1 : List.lookup k (speechTick e now).lip.weights = some 1) :
    List.lookup k e.lip.weights = some 1 ∨ k ∈ e.activeVisemes.map Cue.value := by
  unfold speechTick at h1
  by_cases he : e.activeVisemes.isEmpty = true
  · rw [if_pos he] at h1
    exact Or.inl h1
  · rw [if_neg he] at h1
    exact lipTick_weight_one hk h1

/-- Across a run of render ticks, a viseme weight target reaching 1 traces
back to the initial weights or to a value of the stored cue list. -/
theorem speechRun_weight_one {k : Name} (hk : isVisemeKey k = true) :
    ∀ (ts : List ℚ) (e : SpeechEngine),
      List.lookup k (speechRun e ts).lip.weights = some 1 →
      List.lookup k e.lip.weights = some 1 ∨ k ∈ e.activeVisemes.map Cue.value
  | [], _, h => Or.inl h
  | t :: ts, e, h => by
    have hrec := speechRun_weight_one hk ts (speechTick e t) h
    have hpres : (speechTick e t).activeVisemes = e.activeVisemes := by
      unfold speechTick
      split <;> rfl
    rcases hrec with h1 | h2
    · exact speechTick_weight_one hk h1
    · rw [hpres] at h2
      exact Or.inr h2

/-- A stop pass keeps every key of the source table. -/
theorem stopSource_all_keys {l : List (ℕ × AudioSource)} {j : ℕ} {p : ℕ → Bool}
    (h : l.all (fun q => p q.1) = true) :
    (stopSource l j).all (fun q => p q.1) = true := by
  rw [stopSource, List.all_map]
  refine List.all_eq_true.mpr ?_
  intro q hq
  have hk := List.all_eq_true.mp h q hq
  by_cases hj : (q.1 == j) = true <;> simp [Function.comp, hj, hk]

/-- C3: issuing `speak(A)` then `speak(B)` leaves A's playback resource
stopped, disconnected and with its ended handler detached before B is
scheduled; afterwards the active source is B's, the viseme cursor is 0,
all viseme weight targets and the jaw target are zeroed, the stored cue
list is B's and the stored emotion B's; and on any later run of render
ticks a viseme weight target can only be driven to 1 by a value of B's
cue list. -/
theorem speak_supersedes (e : SpeechEngine) (idA idB : ℕ) (cuesA cuesB : List Cue)
    (emoA emoB : Emotion) (t1 t2 : ℚ)
    (hfresh : e.sources.all (fun q => !(q.1 == idA)) = true) :
    List.lookup idA (speak (speak e idA cuesA emoA t1) idB cuesB emoB t2).sources =
        some ⟨true, false, false⟩ ∧
    (speak (speak e idA cuesA emoA t1) idB cuesB emoB t2).activeSource = some idB ∧
    (speak (speak e idA cuesA emoA t1) idB cuesB emoB t2).lip.cursor = 0 ∧
    allVisemesZero (speak (speak e idA cuesA emoA t1) idB cuesB emoB t2).lip.weights ∧
    (speak (speak e idA cuesA emoA t1) idB cuesB emoB t2).lip.jaw = 0 ∧
    (speak (speak e idA cuesA emoA t1) idB cuesB emoB t2).activeVisemes = cuesB ∧
    (speak (speak e idA cuesA emoA t1) idB cuesB emoB t2).emotion = emoB ∧
    (∀ (ts : List ℚ) (k : Name), isVisemeKey k = true →
      List.lookup k
          (speechRun (speak (speak e idA cuesA emoA t1) idB cuesB emoB t2) ts).lip.weights =
        some 1 →
      k ∈ cuesB.map Cue.value) := by
  obtain ⟨src0, hsrc0, hall0⟩ : ∃ src0,
      (speak e idA cuesA emoA t1).sources = src0 ++ [(idA, ⟨false, true, true⟩)] ∧
        src0.all (fun q => !(q.1 == idA)) = true := by
    cases ha : e.activeSource with
    | none => exact ⟨e.sources, by simp [speak, ha], hfresh⟩
    | some i => exact ⟨stopSource e.sources i, by simp [speak, ha],
        stopSource_all_keys (p := fun n => !(n == idA)) hfresh⟩
  have hsrcAB : (speak (speak e idA cuesA emoA t1) idB cuesB emoB t2).sources =
      (stopSource src0 idA ++ [(idA, ⟨true, false, false⟩)]) ++
        [(idB, ⟨false, true, true⟩)] := by
    show stopSource (speak e idA cuesA emoA t1).sources idA ++ _ = _
    rw [hsrc0, stopSource, List.map_append, ← stopSource]
    simp [stopSource]
  refine ⟨?_, rfl, rfl, allVisemesZero_zeroVisemes _, rfl, rfl, rfl, ?_⟩
  · rw [hsrcAB, lookup_append, lookup_append]
    have hnone : List.lookup idA (stopSource src0 idA) = none :=
      lookup_eq_none_of_all_not (fun n => n == idA) _
        (stopSource_all_keys (p := fun n => !(n == idA)) hall0) (beq_self_eq_true idA)
    rw [hnone, Option.none_or]
    simp [List.lookup_cons]
  · intro ts k hk h1
    rcases speechRun_weight_one hk ts _ h1 with h2 | h2
    · exfalso
      have hmem := mem_of_lookup_eq_some h2
      have hz := allVisemesZero_zeroVisemes
        ((speak e idA cuesA emoA t1).lip.weights) (k, 1) hmem hk
      exact absurd hz (by norm_num)
    · exact h2

/-- Witness: the supersession facts on a concrete engine and two speech
requests. -/
theorem speak_supersedes_witness :
    List.lookup 0 (speak (speak ⟨[], none, false, ⟨0, [], 0⟩, Emotion.neutral, [], 0⟩
        0 cuesEx Emotion.happy 0) 1 [] Emotion.sad 1).sources =
      some ⟨true, false, false⟩ ∧
    (speak (speak ⟨[], none, false, ⟨0, [], 0⟩, Emotion.neutral, [], 0⟩
        0 cuesEx Emotion.happy 0) 1 [] Emotion.sad 1).activeVisemes = [] :=
  ⟨(speak_supersedes ⟨[], none, false, ⟨0, [], 0⟩, Emotion.neutral, [], 0⟩
      0 1 cuesEx [] Emotion.happy Emotion.sad 0 1 (by decide)).1,
   (speak_supersedes ⟨[], none, false, ⟨0, [], 0⟩, Emotion.neutral, [], 0⟩
      0 1 cuesEx [] Emotion.happy Emotion.sad 0 1 (by decide)).2.2.2.2.2.1⟩

/-- C4: after a locomotion clip completes — whatever playback did to the
camera, the orbit target, the model root and the joint poses — the model
root position and orientation are back at their load-time captures, the
skeleton is in bind pose, the camera position and orbit target are back
at the values captured when the follow began, the saved user-interaction
settings are restored, the follow is off and the idle action plays again
at full weight. -/
theorem locomotion_completion_restores (e : LocoEngine) (cam tgt mp : Vec3)
    (mq : Quat4) (pose : List Quat4) :
    (finishLocomotion (playbackPerturb (startLocomotion e) cam tgt mp mq pose)).modelPos =
        e.modelStartPos ∧
    (finishLocomotion (playbackPerturb (startLocomotion e) cam tgt mp mq pose)).modelQuat =
        e.modelStartQuat ∧
    (finishLocomotion (playbackPerturb (startLocomotion e) cam tgt mp mq pose)).skelPose =
        e.bindPose ∧
    (finishLocomotion (playbackPerturb (startLocomotion e) cam tgt mp mq pose)).cameraPos =
        e.cameraPos ∧
    (finishLocomotion (playbackPerturb (startLocomotion e) cam tgt mp mq pose)).controls =
        e.controls ∧
    (finishLocomotion (playbackPerturb (startLocomotion e) cam tgt mp mq pose)).isFollowing =
        false ∧
    (finishLocomotion (playbackPerturb (startLocomotion e) cam tgt mp mq pose)).idle =
        ⟨true, 1⟩ ∧
    (finishLocomotion (playbackPerturb (startLocomotion e) cam tgt mp mq pose)).locomotion =
        ⟨false, 0⟩ :=
  ⟨rfl, rfl, rfl, rfl, rfl, rfl, rfl, rfl⟩

/-- C5 counterexample: a failed clip load does not run the completion
restore path: on an engine away from bind pose with a stopped idle
action, the state after the failure still has the skeleton away from bind
pose and the idle action not playing. -/
theorem playAnimation_failure_not_restored :
    ¬ ((playAnimationOutcome LoadResult.loadError brokenPoseEngine).1.skelPose =
          brokenPoseEngine.bindPose ∧
        (playAnimationOutcome LoadResult.loadError brokenPoseEngine).1.idle = ⟨true, 1⟩) := by
  decide

/-- C5 amended: a clip-load failure rejects the request before any engine
state is mutated: the skeleton pose, model root transform and camera
state are exactly as before the call (so the avatar is never left in a
half-applied pose), and the completion restore path is not executed. -/
theorem playAnimation_failure_leaves_state (load : LoadResult) (e : LocoEngine)
    (h : load = LoadResult.noAnimData ∨ load = LoadResult.loadError) :
    (playAnimationOutcome load e).1 = e ∧ (playAnimationOutcome load e).2 = false := by
  rcases h with rfl | rfl
  · exact ⟨rfl, rfl⟩
  · exact ⟨rfl, rfl⟩

/-- Witness: the failure path on the concrete engine. -/
theorem playAnimation_failure_leaves_state_witness :
    (playAnimationOutcome LoadResult.loadError brokenPoseEngine).1 = brokenPoseEngine ∧
      (playAnimationOutcome LoadResult.loadError brokenPoseEngine).2 = false :=
  playAnimation_failure_leaves_state LoadResult.loadError brokenPoseEngine (Or.inr rfl)

/-- C9 counterexample: with the locomotion follow and the typing overlay
both active, a render tick whose blink timer has elapsed still starts a
blink and writes the blink weights. -/
theorem blink_runs_during_locomotion_and_typing :
    ¬ ((proceduralFaceTick ⟨true, true⟩ blinkDue gazeIdleState (1/60) 0 0 0 0).1.left =
          blinkDue.left ∧
        (proceduralFaceTick ⟨true, true⟩ blinkDue gazeIdleState (1/60) 0 0 0 0).1.isBlinking =
          false) := by
  intro hcl
  have h1 := hcl.1
  norm_num [proceduralFaceTick, blinkTick, blinkDue] at h1

/-- C9 amended: the blink and gaze-saccade processes run identically
whatever the locomotion-follow and typing flags are (the render tick
never consults them), and a due blink fires in any flag state. -/
theorem proceduralFace_ignores_overlays (f1 f2 : OverlayFlags) (b : BlinkState)
    (g : GazeState) (delta rb r1 r2 r3 : ℚ) :
    proceduralFaceTick f1 b g delta rb r1 r2 r3 =
        proceduralFaceTick f2 b g delta rb r1 r2 r3 ∧
    (b.isBlinking = false → b.timeUntilBlink - delta ≤ 0 →
      (proceduralFaceTick f1 b g delta rb r1 r2 r3).1.isBlinking = true ∧
      (proceduralFaceTick f1 b g delta rb r1 r2 r3).1.left = 1) := by
  refine ⟨rfl, fun hb hcond => ?_⟩
  have hstep : blinkTick b delta rb = { b with
      isBlinking := true
      blinkProgress := 0
      timeUntilBlink := b.timeUntilBlink - delta
      left := 1
      right := 1 } := by
    unfold blinkTick
    rw [hb]
    rw [if_neg (by simp), if_pos hcond]
  show (blinkTick b delta rb).isBlinking = true ∧ (blinkTick b delta rb).left = 1
  rw [hstep]
  exact ⟨rfl, rfl⟩

/-- Witness: a due blink fires while both overlays are active. -/
theorem proceduralFace_ignores_overlays_witness :
    (proceduralFaceTick ⟨true, true⟩ blinkDue gazeIdleState (1/60) 0 0 0 0).1.isBlinking =
        true ∧
      (proceduralFaceTick ⟨true, true⟩ blinkDue gazeIdleState (1/60) 0 0 0 0).1.left = 1 :=
  (proceduralFace_ignores_overlays ⟨true, true⟩ ⟨false, false⟩ blinkDue gazeIdleState
      (1/60) 0 0 0 0).2 rfl (by norm_num [blinkDue])

/-- The emotion pass never changes the entry of a viseme key or of
`jawOpen`. -/
theorem applyEmotionPass_preserves {k : Name}
    (hk : isVisemeKey k = true ∨ k = jawOpenKey) (dict : List Name) (delta : ℚ) :
    ∀ (targets : List (Name × ℚ)) (inf : List (Name × ℚ)),
      List.lookup k (applyEmotionPass dict inf targets delta) = List.lookup k inf
  | [], _ => rfl
  | p :: rest, inf => by
    by_cases hc : (dict.contains p.1 && !(isVisemeKey p.1) && !(p.1 == jawOpenKey)) = true
    · have hrest := applyEmotionPass_preserves hk dict delta rest
        (setWeight inf p.1 (lerp (getInfluence inf p.1) p.2 (LERP_SPEED * delta)))
      have hstep : applyEmotionPass dict inf (p :: rest) delta =
          applyEmotionPass dict
            (setWeight inf p.1 (lerp (getInfluence inf p.1) p.2 (LERP_SPEED * delta)))
            rest delta := by
        simp only [applyEmotionPass, List.foldl_cons, hc, if_true]
      have hne : (k == p.1) = false := by
        simp only [Bool.and_eq_true, Bool.not_eq_true'] at hc
        rw [beq_eq_false_iff_ne]
        rcases hk with hv | hj
        · intro he
          rw [← he, hv] at hc
          exact absurd hc.1.2 (by simp)
        · intro he
          have := hc.2
          rw [← he, hj] at this
          exact absurd this (by simp)
      rw [hstep, hrest, lookup_setWeight_ne hne]
    · rw [Bool.not_eq_true] at hc
      have hstep : applyEmotionPass dict inf (p :: rest) delta =
          applyEmotionPass dict inf rest delta := by
        simp only [applyEmotionPass, List.foldl_cons, hc, Bool.false_eq_true, if_false]
      rw [hstep]
      exact applyEmotionPass_preserves hk dict delta rest inf

/-- C10: the emotion application step skips every `viseme_` key and the
`jawOpen` key, so the lip-sync channels are untouched by the emotion
path; in particular the `excited` profile, although it contains
`jawOpen`, never drives the `jawOpen` morph through this pass. -/
theorem emotion_pass_never_drives_lipsync (dict : List Name)
    (inf targets : List (Name × ℚ)) (delta : ℚ) :
    (∀ k, isVisemeKey k = true ∨ k = jawOpenKey →
      List.lookup k (applyEmotionPass dict inf targets delta) = List.lookup k inf) ∧
    jawOpenKey ∈ (emotionProfile Emotion.excited).map Prod.fst ∧
    List.lookup jawOpenKey
        (applyEmotionPass dict inf (emotionProfile Emotion.excited) delta) =
      List.lookup jawOpenKey inf := by
  refine ⟨fun k hk => applyEmotionPass_preserves hk dict delta targets inf, ?_,
    applyEmotionPass_preserves (Or.inr rfl) dict delta _ inf⟩
  decide

/-- Witness: the `excited` profile applied over a face with `jawOpen`
present leaves the `jawOpen` influence untouched. -/
theorem emotion_pass_never_drives_lipsync_witness :
    List.lookup jawOpenKey (applyEmotionPass [jawOpenKey] [(jawOpenKey, 1/2)]
        (emotionProfile Emotion.excited) (1/60)) =
      List.lookup jawOpenKey [(jawOpenKey, 1/2)] :=
  (emotion_pass_never_drives_lipsync [jawOpenKey] [(jawOpenKey, 1/2)] [] (1/60)).2.2

/-- C8 amended: the smoothing step is the single linear interpolation
`x + (target - x) * LERP_SPEED * dt`; advancing twice with `dt/2` differs
from advancing once with `dt` by exactly
`(target - x) * (LERP_SPEED * dt)^2 / 4`, so the behavior is frame-rate
dependent whenever `x ≠ target` and `dt ≠ 0`. -/
theorem smoothTowards_half_step_defect (x target dt : ℚ) :
    smoothTowards (smoothTowards x target (dt/2)) target (dt/2) =
      smoothTowards x target dt - (target - x) * (LERP_SPEED * dt)^2 / 4 := by
  simp only [smoothTowards, lerp, LERP_SPEED]
  ring

end Avatar
